import Mathlib

/-!
Verification development for the source-to-source rewriting engine in
src/rust.rs.  Strings are modelled as lists of characters; positions use the
proc_macro2 convention (1-indexed line, 0-indexed column, end columns
exclusive).  Each definition is a shallow embedding of the correspondingly
named Rust function; the external parser and tokenizer are abstracted as
parameters or as explicitly supplied concrete data.
-/

abbrev Strg := List Char

/-- Model of Rust char::is_whitespace restricted to the whitespace
characters that can occur in source text handled here. -/
def rustIsWhitespace (c : Char) : Bool :=
  c = ' ' || c = '\t' || c = '\n' || c = '\r' || c = '\x0b' || c = '\x0c'

/-- Model of str::trim_end. -/
def trimEnd (s : Strg) : Strg :=
  (s.reverse.dropWhile rustIsWhitespace).reverse

/-- Model of str::trim_start. -/
def trimStart (s : Strg) : Strg :=
  s.dropWhile rustIsWhitespace

/-- Model of str::split with separator a newline character: always returns a
non-empty list, and an empty input yields one empty piece. -/
def splitNL : Strg → List Strg
  | [] => [[]]
  | c :: rest =>
    if c = '\n' then [] :: splitNL rest
    else
      match splitNL rest with
      | h :: t => (c :: h) :: t
      | [] => [[c]]

/-- Model of str::ends_with applied to a newline character. -/
def endsWithNL (s : Strg) : Bool :=
  s.getLast? = some '\n'

/-- Model of str::lines: no trailing empty piece, and an empty string has no
lines. -/
def rustLines (s : Strg) : List Strg :=
  if s = [] then []
  else if endsWithNL s then (splitNL s).dropLast
  else splitNL s

/-- proc_macro2::LineColumn: 1-indexed line, 0-indexed column. -/
structure LineColumn where
  line : Nat
  column : Nat
deriving DecidableEq, Repr

/-- Strict order on LineColumn (derived lexicographic Ord in proc_macro2). -/
def lcLt (a b : LineColumn) : Bool :=
  a.line < b.line || (a.line = b.line && a.column < b.column)

/-- Strict order on the BTreeMap keys (start, end): lexicographic. -/
def keyLt (a b : LineColumn × LineColumn) : Bool :=
  lcLt a.1 b.1 || (a.1 = b.1 && lcLt a.2 b.2)

/-- The replacement map of replace_ranges: a BTreeMap from (start, end) spans
to replacement text, modelled as a list sorted by key. -/
abbrev Reps := List ((LineColumn × LineColumn) × Strg)

/-- Model of BTreeMap::insert on the sorted-list representation: an insert
with an already present key replaces the stored value. -/
def btreeInsert : Reps → LineColumn × LineColumn → Strg → Reps
  | [], k, v => [(k, v)]
  | (k', v') :: rest, k, v =>
    if k = k' then (k, v) :: rest
    else if keyLt k k' then (k, v) :: (k', v') :: rest
    else (k', v') :: btreeInsert rest k v

/-- The skip test of replace_ranges: whether position (i, j) is strictly
before the pending end position, as in the source's
(i, j) < (line - 1, column) tuple comparison. -/
def skipActive (skip : Option LineColumn) (i j : Nat) : Bool :=
  match skip with
  | some lc => i < lc.line - 1 || (i = lc.line - 1 && j < lc.column)
  | none => false

/-- The inner character loop of replace_ranges over one line: emits a pending
replacement whose start matches the current (line i, column j), skips
characters covered by a ranged replacement, and copies everything else. -/
def rrChars (i j : Nat) (cs : Strg) (reps : Reps) (skip : Option LineColumn) :
    Strg × Reps × Option LineColumn :=
  match cs with
  | [] => ([], reps, skip)
  | c :: rest =>
    match reps with
    | ((s, e), rep) :: rtail =>
      if i = s.line - 1 ∧ j = s.column then
        if s = e then
          let r := rrChars i (j + 1) rest rtail skip
          (rep ++ c :: r.1, r.2.1, r.2.2)
        else
          let r := rrChars i (j + 1) rest rtail (some e)
          (rep ++ r.1, r.2.1, r.2.2)
      else
        if skipActive skip i j then
          rrChars i (j + 1) rest (((s, e), rep) :: rtail) skip
        else
          let r := rrChars i (j + 1) rest (((s, e), rep) :: rtail) none
          (c :: r.1, r.2.1, r.2.2)
    | [] =>
      if skipActive skip i j then
        rrChars i (j + 1) rest [] skip
      else
        let r := rrChars i (j + 1) rest [] none
        (c :: r.1, r.2.1, r.2.2)

/-- The end-of-line flush loop of replace_ranges: emits every pending
replacement whose start line is the current line. -/
def rrFlush (i : Nat) (reps : Reps) (skip : Option LineColumn) :
    Strg × Reps × Option LineColumn :=
  match reps with
  | [] => ([], [], skip)
  | ((s, e), rep) :: rtail =>
    if i = s.line - 1 then
      let sk := if lcLt s e then some e else skip
      let r := rrFlush i rtail sk
      (rep ++ r.1, r.2.1, r.2.2)
    else ([], ((s, e), rep) :: rtail, skip)

/-- The line loop of replace_ranges, appending a newline after a line when
more lines follow or the original code ended with a newline. -/
def rrLines (i : Nat) (ls : List Strg) (endsNL : Bool) (reps : Reps)
    (skip : Option LineColumn) : Strg :=
  match ls with
  | [] => []
  | l :: rest =>
    let r1 := rrChars i 0 l reps skip
    let r2 := rrFlush i r1.2.1 r1.2.2
    r1.1 ++ r2.1 ++ (if rest.isEmpty && !endsNL then [] else ['\n']) ++
      rrLines (i + 1) rest endsNL r2.2.1 r2.2.2

/-- replace_ranges (src/rust.rs): one forward scan over the lines of the
trimmed source applying the sorted replacement map. -/
def replace_ranges (code : Strg) (reps : Reps) : Strg :=
  rrLines 0 (splitNL (trimEnd code)) (endsWithNL code) reps none

/-- The final debug assertion of replace_ranges,
debug_assert with syn::parse_file(&code).is_ok(): the external parser
(abstracted as parseOk) is evaluated on the argument named code — the INPUT
of the function — and the replacement set is unused by the assertion. -/
def replaceRangesDebugAssert (parseOk : Strg → Bool) (code : Strg)
    (_reps : Reps) : Bool :=
  parseOk code

/-- proc_macro2::Spacing for punctuation tokens. -/
inductive Spacing
  | alone
  | joint
deriving DecidableEq, Repr

/-- proc_macro2::Delimiter. -/
inductive Delim
  | paren
  | brace
  | bracket
  | noDelim
deriving DecidableEq, Repr

mutual
/-- proc_macro2::TokenTree, each token carrying the end position of its
span.  Token streams are a dedicated list type so that the scanning
functions below are structurally recursive. -/
inductive Tok
  | ident (name : Strg) (endPos : LineColumn)
  | lit (text : Strg) (endPos : LineColumn)
  | punct (ch : Char) (spacing : Spacing) (endPos : LineColumn)
  | group (delim : Delim) (stream : TokStream) (endPos : LineColumn)

/-- proc_macro2::TokenStream. -/
inductive TokStream
  | nil
  | cons (t : Tok) (rest : TokStream)
end

/-- Build a token stream from a list of tokens (concrete-data helper). -/
def TokStream.ofL : List Tok → TokStream
  | [] => .nil
  | t :: ts => .cons t (TokStream.ofL ts)

/-- Sorted insertion into the BTreeSet of positions collected by
find_dollar_crates. -/
def lcInsert (p : LineColumn) : List LineColumn → List LineColumn
  | [] => [p]
  | q :: rest =>
    if p = q then q :: rest
    else if lcLt p q then p :: q :: rest
    else q :: lcInsert p rest

/-- BTreeSet::remove on the sorted-list representation. -/
def lcRemove (p : LineColumn) (l : List LineColumn) : List LineColumn :=
  l.filter (fun q => q ≠ p)

/-- The pair scan of find_dollar_crates (src/rust.rs), producing the span
ends it records, in encounter order: every adjacent token pair of the
stream is visited with its pair index (recursing into a group when it is
the first token of the very first pair or the second token of any pair),
and the span end of each ident crate immediately following a dollar punct
is recorded. -/
def fdcList (i : Nat) (ts : TokStream) : List LineColumn :=
  match ts with
  | .cons t1 (.cons t2 rest) =>
    (if i = 0 then
      match t1 with
      | .group _ s _ => fdcList 0 s
      | _ => []
     else []) ++
    (match t2 with
     | .group _ s _ => fdcList 0 s
     | _ => []) ++
    (match t1, t2 with
     | .punct c _ _, .ident n e =>
       if c = '$' ∧ n = "crate".toList then [e] else []
     | _, _ => []) ++
    fdcList (i + 1) (.cons t2 rest)
  | _ => []
termination_by structural ts

/-- find_dollar_crates (src/rust.rs): the pair scan's insertions, applied
to the accumulated BTreeSet in encounter order. -/
def find_dollar_crates (ts : TokStream) (acc : List LineColumn) :
    List LineColumn :=
  (fdcList 0 ts).foldl (fun a e => lcInsert e a) acc

/-- The six-token window scan of exclude_crate_macros, producing the span
ends it removes, in encounter order: a flat window dollar, crate, colon,
colon, ident, bang removes the crate ident's span end. -/
def ecmWindowList : TokStream → List LineColumn
  | .cons t1 (.cons t2 (.cons t3 (.cons t4 (.cons t5 (.cons t6 rest))))) =>
    (match t1, t2, t3, t4, t5, t6 with
     | .punct c1 _ _, .ident n e, .punct c2 _ _, .punct c3 _ _,
         .ident _ _, .punct c4 _ _ =>
       if c1 = '$' ∧ n = "crate".toList ∧ c2 = ':' ∧ c3 = ':' ∧ c4 = '!' then
         [e]
       else []
     | _, _, _, _, _, _ => []) ++
    ecmWindowList (.cons t2 (.cons t3 (.cons t4 (.cons t5 (.cons t6 rest)))))
  | _ => []
termination_by structural ts => ts

/-- The per-group part of exclude_crate_macros as the ordered list of
removals it performs: group by group in order, each group's stream is
processed by the window scan and then its own group recursion. -/
def ecmGroupList : TokStream → List LineColumn
  | .nil => []
  | .cons (.group _ s _) rest =>
    (ecmWindowList s ++ ecmGroupList s) ++ ecmGroupList rest
  | .cons _ rest => ecmGroupList rest
termination_by structural ts => ts

/-- The ordered list of removals of exclude_crate_macros: the window scan
of the stream itself, then the removals of every contained group. -/
def ecmList (ts : TokStream) : List LineColumn :=
  ecmWindowList ts ++ ecmGroupList ts

/-- exclude_crate_macros (src/rust.rs): the scan's removals, applied to
the accumulated BTreeSet in encounter order. -/
def exclude_crate_macros (ts : TokStream) (acc : List LineColumn) :
    List LineColumn :=
  (ecmList ts).foldl (fun a e => lcRemove e a) acc

/-- One top-level item of a parsed file, as far as modify_macros's visitor
looks at it: a macro item records whether the definition has a name
(syn's ItemMacro ident is Some, i.e. a macro_rules definition), whether it
carries the macro_export attribute, and its body token stream.  The code
under test reads only hasIdent; the export flag is part of the syntax model
so that exported and private definitions can be distinguished in claims. -/
inductive FileItem
  | itemMacro (hasIdent : Bool) (macroExport : Bool) (tokens : TokStream)
  | otherItem

/-- The visitor of modify_macros over a file's items: for every macro item
with a name (and regardless of any export attribute), run
find_dollar_crates then exclude_crate_macros on its body. -/
def collect_dollar_crates : List FileItem → List LineColumn → List LineColumn
  | [], acc => acc
  | .itemMacro true _ toks :: rest, acc =>
    collect_dollar_crates rest
      (exclude_crate_macros toks (find_dollar_crates toks acc))
  | _ :: rest, acc => collect_dollar_crates rest acc

/-- modify_macros (src/rust.rs): the syn and proc_macro2 view of code is
supplied as file; every recorded position receives a zero-width insertion
of a path separator followed by the extern crate name. -/
def modify_macros (code : Strg) (file : List FileItem)
    (extern_crate_name : Strg) : Strg :=
  replace_ranges code
    ((collect_dollar_crates file []).map
      (fun p => ((p, p), ':' :: ':' :: extern_crate_name)))

/-- A filesystem path as its list of components, the last being the file
name. -/
abbrev FsPath := List Strg

/-- Model of Path::file_name. -/
def fsFileName (p : FsPath) : Option Strg :=
  p.getLast?

/-- Model of Path::with_file_name: replace the final component. -/
def fsWithFileName (p : FsPath) (n : Strg) : FsPath :=
  p.dropLast ++ [n]

/-- Model of Path::file_stem: the file name up to (exclusive) its final
dot, or the entire name when it has no dot or only a leading dot. -/
def fileStem (s : Strg) : Strg :=
  let rev := s.reverse
  let ext := rev.takeWhile (fun c => c ≠ '.')
  if ext.length = rev.length then s
  else
    let stem := (rev.drop (ext.length + 1)).reverse
    if stem = [] then s else stem

/-- Replace the extension of a file name (empty extension = strip it). -/
def setExtension (s ext : Strg) : Strg :=
  fileStem s ++ (if ext = [] then [] else '.' :: ext)

/-- Model of Path::with_extension. -/
def fsWithExtension (p : FsPath) (ext : Strg) : FsPath :=
  match p.getLast? with
  | some f => p.dropLast ++ [setExtension f ext]
  | none => p

/-- Model of Path::join with a single-component suffix. -/
def fsJoin (p : FsPath) (s : Strg) : FsPath :=
  p ++ [s]

/-- The candidate-path computation of expand_mods (src/rust.rs) for one
out-of-line declaration mod ident; in the file at srcPath: an explicit
path attribute wins; otherwise at recursion depth 0 or in a file named
mod.rs the candidates are built with with_file_name directly, and in any
other file they are built with with_file_name applied after
with_extension of the empty string. -/
def modCandidatePaths (srcPath : FsPath) (depth : Nat)
    (pathAttr : Option Strg) (ident : Strg) : List FsPath :=
  match pathAttr with
  | some path => [fsJoin (fsWithFileName srcPath []) path]
  | none =>
    if depth = 0 ∨ fsFileName srcPath = some "mod.rs".toList then
      [fsWithExtension (fsWithFileName srcPath ident) "rs".toList,
       fsJoin (fsWithFileName srcPath ident) "mod.rs".toList]
    else
      [fsWithExtension (fsWithFileName (fsWithExtension srcPath []) ident)
         "rs".toList,
       fsJoin (fsWithFileName (fsWithExtension srcPath []) ident)
         "mod.rs".toList]

/-- The candidate selection of expand_mods: the first existing candidate
wins; when none exists, the fatal error carries every attempted path
(bail with the formatted path list). -/
def resolveModFile (exists_ : FsPath → Bool) (paths : List FsPath) :
    Except (List FsPath) FsPath :=
  match paths.find? exists_ with
  | some p => .ok p
  | none => .error paths

/-- cfg_expr::Predicate as used by resolve_cfgs: test, proc-macro, named
flag, named feature, or any other (undecidable) predicate. -/
inductive CfgPred
  | test
  | procMacro
  | flag (s : Strg)
  | feature (s : Strg)
  | otherPred
deriving DecidableEq, Repr

mutual
/-- cfg_expr::Expression: a predicate tree with all(), any(), not(). -/
inductive CfgExpr
  | pred (p : CfgPred)
  | allE (es : CfgList)
  | anyE (es : CfgList)
  | notE (e : CfgExpr)

/-- A list of cfg subexpressions (dedicated type for structural
recursion). -/
inductive CfgList
  | nil
  | cons (e : CfgExpr) (rest : CfgList)
end

/-- Build a CfgList from a list (concrete-data helper). -/
def CfgList.ofL : List CfgExpr → CfgList
  | [] => .nil
  | e :: es => .cons e (CfgList.ofL es)

/-- Three-valued negation (cfg_expr's Logic for Option of bool). -/
def kNot : Option Bool → Option Bool
  | some b => some !b
  | none => none

/-- Three-valued conjunction (cfg_expr's Logic for Option of bool). -/
def kAnd : Option Bool → Option Bool → Option Bool
  | some false, _ => some false
  | _, some false => some false
  | some true, some true => some true
  | _, _ => none

/-- Three-valued disjunction (cfg_expr's Logic for Option of bool). -/
def kOr : Option Bool → Option Bool → Option Bool
  | some true, _ => some true
  | _, some true => some true
  | some false, some false => some false
  | _, _ => none

mutual
/-- cfg_expr::Expression::eval with a three-valued predicate
environment. -/
def evalExpr (f : CfgPred → Option Bool) : CfgExpr → Option Bool
  | .pred p => f p
  | .allE es => evalAll f es (some true)
  | .anyE es => evalAny f es (some false)
  | .notE e => kNot (evalExpr f e)

/-- Fold of three-valued conjunction over a subexpression list. -/
def evalAll (f : CfgPred → Option Bool) : CfgList → Option Bool →
    Option Bool
  | .nil, acc => acc
  | .cons e rest, acc => evalAll f rest (kAnd acc (evalExpr f e))

/-- Fold of three-valued disjunction over a subexpression list. -/
def evalAny (f : CfgPred → Option Bool) : CfgList → Option Bool →
    Option Bool
  | .nil, acc => acc
  | .cons e rest, acc => evalAny f rest (kOr acc (evalExpr f e))
end

/-- The predicate environment of resolve_cfgs (src/rust.rs): test and
proc-macro are false, the flag cargo_equip is true, a feature atom is its
membership in the supplied feature list, and everything else is
undecidable. -/
def predEnv (features : List Strg) : CfgPred → Option Bool
  | .test => some false
  | .procMacro => some false
  | .flag s => if s = "cargo_equip".toList then some true else none
  | .feature s => some (features.contains s)
  | .otherPred => none

/-- One attribute of a syntax node, as far as resolve_cfgs looks at it: a
parseable cfg(...) attribute carrying its expression, or any other
attribute (including unparseable or non-cfg ones, which the pass
skips). -/
inductive NodeAttr
  | cfgAttr (e : CfgExpr)
  | otherAttr

mutual
/-- An attribute-bearing syntax node with its child nodes, the tree shape
over which resolve_cfgs's visitor works. -/
inductive SynNode
  | node (attrs : List NodeAttr) (children : SynList)

/-- A list of sibling syntax nodes (dedicated type for structural
recursion). -/
inductive SynList
  | nil
  | cons (n : SynNode) (rest : SynList)
end

/-- Build a SynList from a list (concrete-data helper). -/
def SynList.ofL : List SynNode → SynList
  | [] => .nil
  | n :: ns => .cons n (SynList.ofL ns)

/-- The sufficiency of one attribute in Visitor::proceed: the evaluated
cfg predicate of a cfg attribute, nothing for any other attribute. -/
def attrSufficiency (features : List Strg) : NodeAttr →
    Option (Option Bool)
  | .cfgAttr e => some (evalExpr (predEnv features) e)
  | .otherAttr => none

/-- The sufficiency list Visitor::proceed collects over a node's
attributes. -/
def sufficiencies (features : List Strg) (attrs : List NodeAttr) :
    List (Option Bool) :=
  attrs.filterMap (attrSufficiency features)

mutual
/-- Visitor::proceed of resolve_cfgs (src/rust.rs), as the tree transform
induced by its edits: if any cfg attribute evaluates to definitely false
the node is deleted (children unvisited); otherwise the attributes that
evaluate to definitely true are deleted, the node is kept, and its
children are processed recursively. -/
def proceed (features : List Strg) : SynNode → Option SynNode
  | .node attrs children =>
    if (sufficiencies features attrs).any (fun p => p = some false) then
      none
    else
      some (.node
        (attrs.filter
          (fun a => !(attrSufficiency features a = some (some true) : Bool)))
        (proceedList features children))

/-- The recursion of resolve_cfgs over sibling nodes, dropping the deleted
ones. -/
def proceedList (features : List Strg) : SynList → SynList
  | .nil => .nil
  | .cons n rest =>
    match proceed features n with
    | none => proceedList features rest
    | some n' => .cons n' (proceedList features rest)
end

/-- ModNames (src/rust.rs): either a finite set of submodule names or All
(a glob was seen). -/
inductive ModNames
  | scoped (names : Finset Strg)
  | all
deriving DecidableEq

/-- impl Default for ModNames: Scoped with the empty set. -/
def modNamesDefault : ModNames :=
  .scoped ∅

/-- impl Add for ModNames: Scoped sets merge by union (chain + collect on
hash sets), and All absorbs on either side. -/
def modNamesAdd : ModNames → ModNames → ModNames
  | .scoped l, .scoped r => .scoped (l ∪ r)
  | .all, _ => .all
  | .scoped _, .all => .all

/-- The leading shebang strip of erase (src/rust.rs): split_at the index
of the first newline keeps that newline in the remainder. -/
def stripShebang (code : Strg) : Strg :=
  if code.take 2 = "#!".toList then
    code.drop ((code.findIdx? (fun c => c = '\n')).getD code.length)
  else code

/-- The per-line bit mask the visit_file callbacks of erase fill in:
line index to column index to erased. -/
abbrev Mask := Nat → Nat → Bool

/-- set_span (src/rust.rs) as a mask update.  On a single-line span the
range start-column to end-column of that line is set to p.  On a
multi-line span the first line is INSERTED (set true regardless of p)
from the start column on, full middle lines and the final line up to the
end column are set to p. -/
def setSpanF (m : Mask) (s e : LineColumn) (p : Bool) : Mask :=
  fun i j =>
    if s.line = e.line then
      if i = s.line - 1 ∧ s.column ≤ j ∧ j < e.column then p else m i j
    else
      if i = s.line - 1 ∧ s.column ≤ j then true
      else if s.line - 1 < i ∧ i < e.line - 1 then p
      else if i = e.line - 1 ∧ j < e.column then p
      else m i j

/-- One line of erase's output loop: each character whose mask bit is set
becomes a single space. -/
def maskLineGo (mask : Mask) (i j : Nat) : Strg → Strg
  | [] => []
  | c :: rest => (if mask i j then ' ' else c) :: maskLineGo mask i (j + 1) rest

/-- Indexed map over the lines of a file. -/
def mapIdxFrom (f : Nat → Strg → Strg) (i : Nat) : List Strg → List Strg
  | [] => []
  | l :: rest => f i l :: mapIdxFrom f (i + 1) rest

/-- Join lines, terminating every line with a newline (the acc loop of
erase appends one newline per source line). -/
def joinNL : List Strg → Strg
  | [] => []
  | l :: rest => l ++ '\n' :: joinNL rest

/-- The accumulation loop of erase: every line of the (shebang-stripped)
code masked column by column, each line followed by a newline. -/
def blanked (code : Strg) (mask : Mask) : Strg :=
  joinNL (mapIdxFrom (fun i l => maskLineGo mask i 0 l) 0 (rustLines code))

/-- erase (src/rust.rs), with the mask computed by the visit_file
callback abstracted as a parameter: strip a leading shebang line, blank
the masked columns, and return the result with leading whitespace
trimmed. -/
def erase (code : Strg) (mask : Mask) : Strg :=
  trimStart (blanked (stripShebang code) mask)

/-- erase_docs (src/rust.rs): the visitor marks exactly the spans of
doc-shaped attributes (supplied here as the parse result docAttrSpans) in
an initially all-clear mask. -/
def erase_docs (code : Strg)
    (docAttrSpans : List (LineColumn × LineColumn)) : Strg :=
  erase code
    (docAttrSpans.foldl (fun m sp => setSpanF m sp.1 sp.2 true)
      (fun _ _ => false))

/-- The state of the minify serializer: nothing emitted yet, an
identifier or literal just emitted, or a pending run of punctuation
characters with the spacing of its last character. -/
inductive Prev
  | nothing
  | identOrLit
  | puncts (s : Strg) (sp : Spacing)

/-- The token-pair table of minify (src/rust.rs): a pending punctuation
run and a next punctuation character that must not become adjacent. -/
def forbiddenPairs : List (Strg × Char) :=
  [("!".toList, '='), ("%".toList, '='), ("&".toList, '&'),
   ("&".toList, '='), ("*".toList, '='), ("+".toList, '='),
   ("-".toList, '='), ("-".toList, '>'), (".".toList, '.'),
   ("..".toList, '.'), ("..".toList, '='), ("/".toList, '='),
   (":".toList, ':'), ("<".toList, '-'), ("<".toList, '<'),
   ("<".toList, '='), ("<<".toList, '='), ("=".toList, '='),
   ("=".toList, '>'), (">".toList, '='), (">".toList, '>'),
   (">>".toList, '='), ("^".toList, '='), ("|".toList, '='),
   ("|".toList, '|')]

/-- The left bracket character of a delimiter in minify (a group with no
visible delimiter renders as surrounding spaces). -/
def delimL : Delim → Char
  | .paren => '('
  | .brace => '{'
  | .bracket => '['
  | .noDelim => ' '

/-- The right bracket character of a delimiter in minify. -/
def delimR : Delim → Char
  | .paren => ')'
  | .brace => '}'
  | .bracket => ']'
  | .noDelim => ' '

/-- The separator minify emits before an identifier or literal: a space
after another identifier or literal, the flushed run after pending
punctuation, nothing otherwise. -/
def sepFor : Prev → Strg
  | .identOrLit => [' ']
  | .puncts ps _ => ps
  | .nothing => []

/-- The final flush of minify: pending punctuation is emitted, anything
else is not. -/
def flushPrev : Prev → Strg
  | .puncts ps _ => ps
  | _ => []

/-- The emission loop of the inner minify function of minify
(src/rust.rs), carrying the just-emitted state; a group's stream is
serialized starting again from the empty state. -/
def minifyGo : Prev → TokStream → Strg
  | prev, .nil => flushPrev prev
  | prev, .cons (.group d s _) rest =>
    (match prev with
     | .puncts ps _ => ps
     | _ => []) ++
      delimL d :: (minifyGo .nothing s ++ delimR d :: minifyGo .nothing rest)
  | prev, .cons (.ident n _) rest =>
    sepFor prev ++ n ++ minifyGo .identOrLit rest
  | prev, .cons (.lit t _) rest =>
    sepFor prev ++ t ++ minifyGo .identOrLit rest
  | prev, .cons (.punct c sp _) rest =>
    match prev with
    | .puncts ps .alone =>
      ps ++ (if forbiddenPairs.contains (ps, c) then [' '] else []) ++
        minifyGo (.puncts [c] sp) rest
    | .puncts ps .joint => minifyGo (.puncts (ps ++ [c]) sp) rest
    | _ => minifyGo (.puncts [c] sp) rest
termination_by structural _ ts => ts

/-- The inner minify function of minify (src/rust.rs): serialize a token
stream with minimal whitespace, starting from an empty emission state. -/
def minifyTs (ts : TokStream) : Strg :=
  minifyGo .nothing ts

/-- minify (src/rust.rs), with the external parser (syn::parse_file
composed with into_token_stream) abstracted as parse and proc_macro2's
token-stream rendering (the safe fallback text) abstracted as render: on
success the pair holds the returned text and whether the non-fatal
advisory (shell.warn) was emitted. -/
def minify (parse : Strg → Option TokStream) (render : TokStream → Strg)
    (code : Strg) : Option (Strg × Bool) :=
  match parse code with
  | none => none
  | some ts =>
    let safe := render ts
    let acc := minifyTs ts
    if (parse acc).isSome then some (acc, false) else some (safe, true)

/-- Join lines the way replace_ranges's line loop does with no pending
replacements: every line except the last is followed by a newline, and
the last is followed by one exactly when the flag (original code ended
with a newline) is set. -/
def joinIf (e : Bool) : List Strg → Strg
  | [] => []
  | l :: rest =>
    l ++ (if rest.isEmpty && !e then [] else ['\n']) ++ joinIf e rest

/-- A concrete external parser for exercising the debug assertion of
replace_ranges: accepts exactly one source text. -/
def parseOkC1 : Strg → Bool :=
  fun s => s = "fn f()\x7b\x7d".toList

/-- A replacement set replacing the whole of fn f() with text the parser
rejects. -/
def repsC1 : Reps :=
  btreeInsert [] (⟨1, 0⟩, ⟨1, 8⟩) "@@@".toList

/-- Source text of a file holding one private (not macro_export)
macro_rules definition whose body contains a bare hygienic
self-reference. -/
def text3 : Strg :=
  "macro_rules! m \x7b () => \x7b $crate::helper; \x7d; \x7d".toList

/-- The proc_macro2 token stream of the macro body of text3 (the tokens
field of syn's ItemMacro), with its span end positions. -/
def toks3 : TokStream := .ofL
  [.group .paren (.ofL []) ⟨1, 19⟩,
   .punct '=' .joint ⟨1, 21⟩,
   .punct '>' .alone ⟨1, 22⟩,
   .group .brace (.ofL
     [.punct '$' .alone ⟨1, 26⟩,
      .ident "crate".toList ⟨1, 31⟩,
      .punct ':' .joint ⟨1, 32⟩,
      .punct ':' .alone ⟨1, 33⟩,
      .ident "helper".toList ⟨1, 39⟩,
      .punct ';' .alone ⟨1, 40⟩]) ⟨1, 42⟩,
   .punct ';' .alone ⟨1, 43⟩]

/-- The syn view of text3: one named macro_rules item WITHOUT
macro_export. -/
def file3 : List FileItem :=
  [.itemMacro true false toks3]

/-- Source text of a file holding one exported macro_rules definition
whose body contains a bare hygienic self-reference followed by a hygienic
sibling-macro invocation. -/
def text6 : Strg :=
  "macro_rules! m \x7b () => \x7b $crate::helper(); $crate::other!(x); \x7d; \x7d".toList

/-- The proc_macro2 token stream of the macro body of text6. -/
def toks6 : TokStream := .ofL
  [.group .paren (.ofL []) ⟨1, 19⟩,
   .punct '=' .joint ⟨1, 21⟩,
   .punct '>' .alone ⟨1, 22⟩,
   .group .brace (.ofL
     [.punct '$' .alone ⟨1, 26⟩,
      .ident "crate".toList ⟨1, 31⟩,
      .punct ':' .joint ⟨1, 32⟩,
      .punct ':' .alone ⟨1, 33⟩,
      .ident "helper".toList ⟨1, 39⟩,
      .group .paren (.ofL []) ⟨1, 41⟩,
      .punct ';' .alone ⟨1, 42⟩,
      .punct '$' .alone ⟨1, 44⟩,
      .ident "crate".toList ⟨1, 49⟩,
      .punct ':' .joint ⟨1, 50⟩,
      .punct ':' .alone ⟨1, 51⟩,
      .ident "other".toList ⟨1, 56⟩,
      .punct '!' .alone ⟨1, 57⟩,
      .group .paren (.ofL [.ident "x".toList ⟨1, 59⟩]) ⟨1, 60⟩,
      .punct ';' .alone ⟨1, 61⟩]) ⟨1, 63⟩,
   .punct ';' .alone ⟨1, 64⟩]

/-- The syn view of text6: one named, exported macro_rules item. -/
def file6 : List FileItem :=
  [.itemMacro true true toks6]

/-- The token stream of the two-identifier file a  b, for exercising
minify's fallback. -/
def toksW : TokStream := .ofL
  [.ident "a".toList ⟨1, 1⟩, .ident "b".toList ⟨1, 4⟩]

/-- A concrete external parser accepting exactly the text a  b (two
spaces), whose minified form a b it therefore rejects. -/
def parseW : Strg → Option TokStream :=
  fun s => if s = "a  b".toList then some toksW else none

/-- A concrete token-stream rendering (proc_macro2 to_string) for the
minify fallback example. -/
def renderW : TokStream → Strg :=
  fun _ => "a b".toList

theorem btreeInsert_overwrite (m : Reps) (k : LineColumn × LineColumn)
    (s1 s2 : Strg) :
    btreeInsert (btreeInsert m k s1) k s2 = btreeInsert m k s2 := by
  induction m with
  | nil => simp [btreeInsert]
  | cons hd tl ih =>
    obtain ⟨k', v'⟩ := hd
    by_cases h1 : k = k'
    · subst h1
      simp [btreeInsert]
    · by_cases h2 : keyLt k k' = true
      · simp [btreeInsert, h1, h2]
      · simp [btreeInsert, h1, h2, ih]

/-- C1: the hard post-condition of the patcher is claimed to be checked on
the patcher's OUTPUT in debug builds; the debug assertion at the end of
replace_ranges in fact evaluates the external parser on the INPUT code,
so it passes even on an edit set whose application yields unparseable
text: here the input parses, the assertion passes, yet the output is
rejected by the very same parser (and differs from the input). -/
theorem replace_ranges_debug_assert_checks_input_not_output :
    replaceRangesDebugAssert parseOkC1 ("fn f()\x7b\x7d".toList) repsC1 = true
    ∧ parseOkC1 (replace_ranges ("fn f()\x7b\x7d".toList) repsC1) = false
    ∧ replace_ranges ("fn f()\x7b\x7d".toList) repsC1 ≠ "fn f()\x7b\x7d".toList := by
  refine ⟨by decide, by decide, by decide⟩

/-- C3: modify_macros is claimed to leave private (non-macro_export)
macro-by-example definitions completely untouched; the visitor only
requires the definition to be named (ItemMacro ident Some), so the
private definition in text3 has its bare hygienic self-reference
qualified, and the output differs from the input — also contradicting the
repository's own modify_macros test, whose expected output keeps the
private macro body unchanged. -/
theorem modify_macros_rewrites_private_definition :
    modify_macros text3 file3 ("lib".toList)
      = "macro_rules! m \x7b () => \x7b $crate::lib::helper; \x7d; \x7d".toList
    ∧ modify_macros text3 file3 ("lib".toList) ≠ text3 := by
  refine ⟨by rfl, by decide⟩

/-- C6: on a macro body holding both a bare hygienic self-reference and a
hygienic sibling-macro invocation, modify_macros with qualifying name lib
inserts ::lib only after the bare occurrence's root token; the occurrence
followed by ::other! is excluded by the six-token window scan and stays
unqualified. -/
theorem modify_macros_sibling_macro_invocation_not_qualified :
    modify_macros text6 file6 ("lib".toList)
      = "macro_rules! m \x7b () => \x7b $crate::lib::helper(); $crate::other!(x); \x7d; \x7d".toList := by
  decide

/-- C4 (counterexample): erasure does not preserve the line count for
every input: on an input whose first line is empty and carries no doc
attribute (so erase_docs's mask is everywhere clear), the final
trim_start of erase removes the leading newline and the output has one
line where the input has two. -/
theorem erase_line_count_counterexample :
    (rustLines ("\nfn f()\x7b\x7d\n".toList)).length = 2
    ∧ (rustLines (erase_docs ("\nfn f()\x7b\x7d\n".toList) [])).length = 1 := by
  refine ⟨by rfl, by rfl⟩

/-- C7 (counterexample): registering two zero-width edits at the same
position does NOT keep both: the replacement map is a BTreeMap keyed by
the (start, end) pair, so the second registration overwrites the first
and only the second replacement is emitted by the patcher. -/
theorem same_position_insertions_counterexample :
    btreeInsert (btreeInsert [] (⟨1, 0⟩, ⟨1, 0⟩) ("/*".toList))
        (⟨1, 0⟩, ⟨1, 0⟩) ("*/".toList)
      = [((⟨1, 0⟩, ⟨1, 0⟩), "*/".toList)]
    ∧ replace_ranges ("ab".toList)
        (btreeInsert (btreeInsert [] (⟨1, 0⟩, ⟨1, 0⟩) ("/*".toList))
          (⟨1, 0⟩, ⟨1, 0⟩) ("*/".toList))
      = "*/ab".toList
    ∧ replace_ranges ("ab".toList)
        (btreeInsert (btreeInsert [] (⟨1, 0⟩, ⟨1, 0⟩) ("/*".toList))
          (⟨1, 0⟩, ⟨1, 0⟩) ("*/".toList))
      ≠ "/**/ab".toList := by
  refine ⟨by decide, by decide, by decide⟩

/-- C7 (amended): registering a second zero-width edit at a position
already holding one overwrites the first registration, so the edit set is
the same as if only the second had been registered; the single surviving
replacement is emitted before the character at that position. -/
theorem same_position_insertion_overwrites :
    (∀ (m : Reps) (p : LineColumn) (s1 s2 code : Strg),
      replace_ranges code (btreeInsert (btreeInsert m (p, p) s1) (p, p) s2)
        = replace_ranges code (btreeInsert m (p, p) s2))
    ∧ replace_ranges ("ab".toList)
        (btreeInsert [] (⟨1, 0⟩, ⟨1, 0⟩) ("*/".toList))
      = "*/ab".toList := by
  refine ⟨fun m p s1 s2 code => by rw [btreeInsert_overwrite], by decide⟩

theorem splitNL_ne_nil (s : Strg) : splitNL s ≠ [] := by
  induction s with
  | nil => simp [splitNL]
  | cons c rest ih =>
    by_cases h : c = '\n'
    · simp [splitNL, h]
    · simp only [splitNL, if_neg h]
      cases hr : splitNL rest with
      | nil => exact absurd hr ih
      | cons a b => simp

theorem rrChars_no_reps (i j : Nat) (l : Strg) :
    rrChars i j l [] none = (l, [], none) := by
  induction l generalizing j with
  | nil => rfl
  | cons c rest ih => simp [rrChars, skipActive, ih]

theorem rrLines_no_reps (i : Nat) (e : Bool) (ls : List Strg) :
    rrLines i ls e [] none = joinIf e ls := by
  induction ls generalizing i with
  | nil => rfl
  | cons l rest ih =>
    simp [rrLines, rrChars_no_reps, rrFlush, joinIf, ih]

theorem joinIf_cons_cons (e : Bool) (c : Char) (h : Strg) (t : List Strg) :
    joinIf e ((c :: h) :: t) = c :: joinIf e (h :: t) := by
  cases t <;> simp [joinIf]

theorem joinIf_splitNL (e : Bool) (s : Strg) :
    joinIf e (splitNL s) = s ++ (if e then ['\n'] else []) := by
  induction s with
  | nil => cases e <;> simp [splitNL, joinIf]
  | cons c rest ih =>
    by_cases h : c = '\n'
    · subst h
      cases hr : splitNL rest with
      | nil => exact absurd hr (splitNL_ne_nil rest)
      | cons a b =>
        rw [hr] at ih
        have hs : splitNL ('\n' :: rest) = [] :: a :: b := by
          simp [splitNL, hr]
        rw [hs]
        calc joinIf e ([] :: a :: b) = '\n' :: joinIf e (a :: b) := by
              simp [joinIf]
        _ = '\n' :: (rest ++ if e then ['\n'] else []) := by rw [ih]
        _ = ('\n' :: rest) ++ (if e then ['\n'] else []) := by simp
    · simp only [splitNL, if_neg h]
      cases hr : splitNL rest with
      | nil => exact absurd hr (splitNL_ne_nil rest)
      | cons a b =>
        rw [hr] at ih
        rw [joinIf_cons_cons, ih]
        simp

/-- C10: applying the patcher with an empty edit set is not the identity:
for every input, replace_ranges of the input and the empty map equals the
input with its trailing whitespace trimmed, followed by one newline
exactly when the input's last character is a newline; in particular an
input with a trailing space plus newline is altered although no edit
covers it. -/
theorem replace_ranges_empty_edit_set :
    (∀ code : Strg,
      replace_ranges code [] =
        trimEnd code ++ (if endsWithNL code then ['\n'] else []))
    ∧ replace_ranges ("a \n".toList) [] ≠ "a \n".toList := by
  constructor
  · intro code
    unfold replace_ranges
    rw [rrLines_no_reps, joinIf_splitNL]
  · decide

theorem fsWithFileName_after_withExtension (p : FsPath) (ext n : Strg) :
    fsWithFileName (fsWithExtension p ext) n = fsWithFileName p n := by
  cases hp : p.getLast? with
  | none => simp [fsWithExtension, hp]
  | some f =>
    simp only [fsWithExtension, hp, fsWithFileName]
    rw [List.dropLast_concat]

theorem modCandidatePaths_branch_free (srcPath : FsPath) (depth : Nat)
    (ident : Strg) :
    modCandidatePaths srcPath depth none ident
      = [fsWithExtension (fsWithFileName srcPath ident) "rs".toList,
         fsJoin (fsWithFileName srcPath ident) "mod.rs".toList] := by
  by_cases h : depth = 0 ∨ fsFileName srcPath = some "mod.rs".toList
  · simp only [modCandidatePaths, if_pos h, if_pos (Or.inl rfl)]
  · simp only [modCandidatePaths, if_neg h, if_pos (Or.inl rfl)]
    rw [fsWithFileName_after_withExtension]

/-- C2: the nested-module branch of expand_mods (depth nonzero, file not
named mod.rs) is claimed to resolve the candidates against the current
file's path with its extension stripped, per the nested-module
convention; but with_file_name discards the stripped stem, so that branch
computes exactly the same sibling candidates as the crate-root branch
(first conjunct: the depth and file-name distinction is vacuous), and for
src/foo.rs declaring mod bar the candidates are src/bar.rs and
src/bar/mod.rs, not the nested src/foo/bar.rs and src/foo/bar/mod.rs. -/
theorem expand_mods_nested_branch_collapses :
    (∀ (srcPath : FsPath) (depth : Nat) (ident : Strg),
      modCandidatePaths srcPath depth none ident
        = modCandidatePaths srcPath 0 none ident)
    ∧ modCandidatePaths ["src".toList, "foo.rs".toList] 1 none ("bar".toList)
        = [["src".toList, "bar.rs".toList],
           ["src".toList, "bar".toList, "mod.rs".toList]]
    ∧ modCandidatePaths ["src".toList, "foo.rs".toList] 1 none ("bar".toList)
        ≠ [["src".toList, "foo".toList, "bar.rs".toList],
           ["src".toList, "foo".toList, "bar".toList, "mod.rs".toList]] := by
  refine ⟨?_, by decide, by decide⟩
  intro srcPath depth ident
  rw [modCandidatePaths_branch_free, modCandidatePaths_branch_free]

/-- C5: the per-node decision rule of resolve_cfgs: with the environment
of predEnv (cargo_equip true, test and proc-macro false, feature atoms by
membership, others unknown), a node with any cfg attribute evaluating to
definitely false is deleted whole, children unvisited; otherwise exactly
the cfg attributes evaluating to definitely true are deleted, the node is
kept and the rule recurses into the children; when every cfg attribute is
unknown the attribute list is left untouched. -/
theorem resolve_cfgs_node_rule (features : List Strg) (attrs : List NodeAttr)
    (children : SynList) :
    (proceed features (.node attrs children) =
      if (sufficiencies features attrs).any (fun p => p = some false) then
        none
      else
        some (.node
          (attrs.filter
            (fun a => !(attrSufficiency features a = some (some true) : Bool)))
          (proceedList features children)))
    ∧ (proceed features (.node attrs children) = none ↔
        ∃ p ∈ sufficiencies features attrs, p = some false)
    ∧ ((∀ p ∈ sufficiencies features attrs, p = none) →
        attrs.filter
          (fun a => !(attrSufficiency features a = some (some true) : Bool))
          = attrs) := by
  refine ⟨rfl, ?_, ?_⟩
  · by_cases hc :
      (sufficiencies features attrs).any (fun p => p = some false) = true
    · refine iff_of_true ?_ ?_
      · show proceed features (.node attrs children) = none
        rw [show proceed features (.node attrs children) =
          if (sufficiencies features attrs).any (fun p => p = some false)
          then none else _ from rfl]
        rw [if_pos hc]
      · simpa [List.any_eq_true] using hc
    · refine iff_of_false ?_ ?_
      · rw [show proceed features (.node attrs children) =
          if (sufficiencies features attrs).any (fun p => p = some false)
          then none else some (.node
            (attrs.filter (fun a =>
              !(attrSufficiency features a = some (some true) : Bool)))
            (proceedList features children)) from rfl]
        rw [if_neg hc]
        simp
      · simpa [List.any_eq_true] using hc
  · intro hall
    induction attrs with
    | nil => rfl
    | cons a rest ih =>
      have hrest : ∀ p ∈ sufficiencies features rest, p = none := by
        intro p hp
        apply hall
        simp only [sufficiencies, List.filterMap_cons]
        cases ha : attrSufficiency features a with
        | none => simpa [sufficiencies] using hp
        | some v =>
          exact List.mem_cons_of_mem _ (by simpa [sufficiencies] using hp)
      cases a with
      | otherAttr =>
        rw [List.filter_cons_of_pos (by simp [attrSufficiency]), ih hrest]
      | cfgAttr e =>
        have he : evalExpr (predEnv features) e = none := by
          apply hall
          simp [sufficiencies, List.filterMap_cons, attrSufficiency]
        rw [List.filter_cons_of_pos (by simp [attrSufficiency, he]),
          ih hrest]

/-- Witness for resolve_cfgs_node_rule at a concrete input: a single
unknown cfg attribute (an undecidable atom) leaves the node and its
attribute untouched. -/
theorem resolve_cfgs_node_rule_witness :
    proceed ["feat1".toList]
        (.node [NodeAttr.cfgAttr (.pred .otherPred)] .nil)
      = some (.node [NodeAttr.cfgAttr (.pred .otherPred)] .nil) := by
  have h := resolve_cfgs_node_rule ["feat1".toList]
    [NodeAttr.cfgAttr (.pred .otherPred)] .nil
  have h3 := h.2.2 (by
    intro p hp
    simp [sufficiencies, attrSufficiency, evalExpr, predEnv] at hp
    exact hp)
  rw [h.1, h3]
  rfl

/-- C8: ModNames addition is a commutative, associative monoid with
identity Scoped of the empty set, and All absorbs on both sides. -/
theorem mod_names_add_monoid_laws (a b c : ModNames) :
    modNamesAdd a b = modNamesAdd b a
    ∧ modNamesAdd (modNamesAdd a b) c = modNamesAdd a (modNamesAdd b c)
    ∧ modNamesAdd a modNamesDefault = a
    ∧ modNamesAdd modNamesDefault a = a
    ∧ modNamesAdd a .all = .all
    ∧ modNamesAdd .all a = .all := by
  refine ⟨?_, ?_, ?_, ?_, ?_, ?_⟩
  · cases a <;> cases b <;> simp [modNamesAdd, Finset.union_comm]
  · cases a <;> cases b <;> cases c <;>
      simp [modNamesAdd, Finset.union_assoc]
  · cases a <;> simp [modNamesAdd, modNamesDefault]
  · cases a <;> simp [modNamesAdd, modNamesDefault]
  · cases a <;> simp [modNamesAdd]
  · cases a <;> simp [modNamesAdd]

/-- C9: when the minified text re-parses, minify returns it and emits no
advisory; when it does not, minify discards it and returns the safe
unmodified-whitespace rendering of the parsed token stream while emitting
the non-fatal advisory. -/
theorem minify_roundtrip_fallback (parse : Strg → Option TokStream)
    (render : TokStream → Strg) (code : Strg) (ts : TokStream)
    (h : parse code = some ts) :
    minify parse render code =
      some (if (parse (minifyTs ts)).isSome then (minifyTs ts, false)
            else (render ts, true)) := by
  unfold minify
  rw [h]
  by_cases hp : (parse (minifyTs ts)).isSome
  · simp [hp]
  · simp [hp]

/-- Witness for minify_roundtrip_fallback at a concrete input: the parser
accepting exactly the two-space text rejects the one-space minified form,
so the safe rendering is returned together with the advisory. -/
theorem minify_roundtrip_fallback_witness :
    minify parseW renderW ("a  b".toList) = some ("a b".toList, true) := by
  have h := minify_roundtrip_fallback parseW renderW ("a  b".toList) toksW
    (by rfl)
  rw [h]
  rfl

theorem splitNL_no_nl (s : Strg) : ∀ l ∈ splitNL s, '\n' ∉ l := by
  induction s with
  | nil =>
    intro l hl
    simp [splitNL] at hl
    simp [hl]
  | cons c rest ih =>
    intro l hl
    by_cases h : c = '\n'
    · subst h
      simp only [splitNL, if_pos rfl] at hl
      rcases List.mem_cons.1 hl with rfl | hl
      · simp
      · exact ih l hl
    · simp only [splitNL, if_neg h] at hl
      cases hr : splitNL rest with
      | nil => exact absurd hr (splitNL_ne_nil rest)
      | cons a b =>
        rw [hr] at hl
        rcases List.mem_cons.1 hl with rfl | hl
        · intro hm
          rcases List.mem_cons.1 hm with hm | hm
          · exact h hm.symm
          · exact ih a (by rw [hr]; exact List.mem_cons_self a b) hm
        · exact ih l (by rw [hr]; exact List.mem_cons_of_mem a hl)

theorem rustLines_no_nl (s : Strg) : ∀ l ∈ rustLines s, '\n' ∉ l := by
  intro l hl
  unfold rustLines at hl
  by_cases h0 : s = []
  · rw [if_pos h0] at hl
    simp at hl
  · rw [if_neg h0] at hl
    by_cases he : endsWithNL s = true
    · rw [if_pos he] at hl
      exact splitNL_no_nl s l (List.dropLast_subset _ hl)
    · rw [if_neg he] at hl
      exact splitNL_no_nl s l hl

theorem joinNL_ne_nil (l : Strg) (ls : List Strg) : joinNL (l :: ls) ≠ [] := by
  simp [joinNL]

theorem joinNL_getLast (l : Strg) (ls : List Strg) :
    (joinNL (l :: ls)).getLast? = some '\n' := by
  induction ls generalizing l with
  | nil => simp [joinNL, List.getLast?_append_cons]
  | cons m ls ih =>
    have hdef : joinNL (l :: m :: ls) = l ++ '\n' :: joinNL (m :: ls) := rfl
    rw [hdef, List.getLast?_append_cons]
    cases hJ : joinNL (m :: ls) with
    | nil => exact absurd hJ (joinNL_ne_nil m ls)
    | cons b t =>
      rw [List.getLast?_cons_cons, ← hJ, ih m]

theorem splitNL_append_nl (l s : Strg) (h : '\n' ∉ l) :
    splitNL (l ++ '\n' :: s) = l :: splitNL s := by
  induction l with
  | nil => simp [splitNL]
  | cons c cs ih =>
    have hc : ¬(c = '\n') := fun e => h (by simp [e])
    have h' : '\n' ∉ cs := fun hm => h (List.mem_cons_of_mem _ hm)
    rw [List.cons_append]
    simp only [splitNL, if_neg hc, ih h']

theorem splitNL_joinNL (ls : List Strg) (h : ∀ l ∈ ls, '\n' ∉ l) :
    splitNL (joinNL ls) = ls ++ [[]] := by
  induction ls with
  | nil => rfl
  | cons l rest ih =>
    have hdef : joinNL (l :: rest) = l ++ '\n' :: joinNL rest := rfl
    rw [hdef, splitNL_append_nl l _ (h l (List.mem_cons_self l rest)),
      ih (fun x hx => h x (List.mem_cons_of_mem _ hx))]
    rfl

theorem rustLines_joinNL (ls : List Strg) (h : ∀ l ∈ ls, '\n' ∉ l) :
    rustLines (joinNL ls) = ls := by
  cases ls with
  | nil => rfl
  | cons l rest =>
    unfold rustLines
    rw [if_neg (joinNL_ne_nil l rest)]
    have he : endsWithNL (joinNL (l :: rest)) = true := by
      simp [endsWithNL, joinNL_getLast]
    rw [if_pos he, splitNL_joinNL _ h]
    have : (l :: rest) ++ [([] : Strg)] = (l :: rest) ++ [[]] := rfl
    rw [List.dropLast_concat]

theorem mapIdxFrom_length (f : Nat → Strg → Strg) (i : Nat) (ls : List Strg) :
    (mapIdxFrom f i ls).length = ls.length := by
  induction ls generalizing i with
  | nil => rfl
  | cons l rest ih => simp [mapIdxFrom, ih]

theorem maskLineGo_length (mask : Mask) (i j : Nat) (l : Strg) :
    (maskLineGo mask i j l).length = l.length := by
  induction l generalizing j with
  | nil => rfl
  | cons c rest ih => simp [maskLineGo, ih]

theorem maskLineGo_get? (mask : Mask) (i j k : Nat) (l : Strg) :
    (maskLineGo mask i j l).get? k =
      (l.get? k).map (fun c => if mask i (j + k) then ' ' else c) := by
  induction l generalizing j k with
  | nil => simp [maskLineGo]
  | cons c rest ih =>
    cases k with
    | zero => simp [maskLineGo]
    | succ k =>
      simp only [maskLineGo, List.get?_cons_succ, ih (j + 1) k]
      have : j + 1 + k = j + (k + 1) := by omega
      rw [this]

theorem maskLineGo_no_nl (mask : Mask) (i j : Nat) (l : Strg)
    (h : '\n' ∉ l) : '\n' ∉ maskLineGo mask i j l := by
  induction l generalizing j with
  | nil => simp [maskLineGo]
  | cons c rest ih =>
    have hc : ¬(c = '\n') := fun e => h (by simp [e])
    have h' : '\n' ∉ rest := fun hm => h (List.mem_cons_of_mem _ hm)
    intro hm
    simp only [maskLineGo] at hm
    rcases List.mem_cons.1 hm with hm | hm
    · by_cases hb : mask i j = true
      · rw [if_pos hb] at hm
        exact absurd hm.symm (by decide)
      · rw [if_neg hb] at hm
        exact hc hm.symm
    · exact ih (j + 1) h' hm

theorem mapIdxFrom_mem (f : Nat → Strg → Strg) (i : Nat) (ls : List Strg) :
    ∀ x ∈ mapIdxFrom f i ls, ∃ k l, l ∈ ls ∧ x = f k l := by
  induction ls generalizing i with
  | nil => intro x hx; simp [mapIdxFrom] at hx
  | cons l rest ih =>
    intro x hx
    simp only [mapIdxFrom] at hx
    rcases List.mem_cons.1 hx with rfl | hx
    · exact ⟨i, l, List.mem_cons_self l rest, rfl⟩
    · obtain ⟨k, l', hl', rfl⟩ := ih (i + 1) x hx
      exact ⟨k, l', List.mem_cons_of_mem _ hl', rfl⟩

theorem blanked_rustLines (code : Strg) (mask : Mask) :
    rustLines (blanked code mask) =
      mapIdxFrom (fun i l => maskLineGo mask i 0 l) 0 (rustLines code) := by
  unfold blanked
  apply rustLines_joinNL
  intro x hx
  obtain ⟨k, l, hl, rfl⟩ :=
    mapIdxFrom_mem (fun i l => maskLineGo mask i 0 l) 0 (rustLines code) x hx
  exact maskLineGo_no_nl mask k 0 l (rustLines_no_nl code l hl)

/-- C4 (amended): erasure preserves line count and per-line character
counts only up to its outer trimming: after the shebang line (if any) is
stripped, the blanked intermediate text has exactly the lines of the
stripped input masked in place — same line count, same per-line character
count, each blanked column a single space — and erase returns that text
with leading whitespace removed (which can drop leading blank or fully
blanked lines, as the counterexample shows). -/
theorem erase_layout_amended :
    (∀ (code : Strg) (mask : Mask),
      erase code mask = trimStart (blanked (stripShebang code) mask))
    ∧ (∀ (code : Strg) (mask : Mask),
      rustLines (blanked (stripShebang code) mask) =
        mapIdxFrom (fun i l => maskLineGo mask i 0 l) 0
          (rustLines (stripShebang code)))
    ∧ (∀ (f : Nat → Strg → Strg) (i : Nat) (ls : List Strg),
      (mapIdxFrom f i ls).length = ls.length)
    ∧ (∀ (mask : Mask) (i j : Nat) (l : Strg),
      (maskLineGo mask i j l).length = l.length)
    ∧ (∀ (mask : Mask) (i j k : Nat) (l : Strg),
      (maskLineGo mask i j l).get? k =
        (l.get? k).map (fun c => if mask i (j + k) then ' ' else c)) := by
  exact ⟨fun code mask => rfl,
    fun code mask => blanked_rustLines (stripShebang code) mask,
    mapIdxFrom_length, maskLineGo_length, maskLineGo_get?⟩
